import Mathlib

/-!
Shallow embedding of `src/app/core/db.py` (`DocumentDatabase`), the SQLite-backed
document store of the task-trackers-synchronizer repository, together with proofs
about the behaviour of its operations `add_row`, `add_all`, `get_all`, `find` and
`close`.

Modelling choices, documented once here:

* Python strings are modelled as `List Char`; Python `dict` objects (documents and
  queries) are modelled as association lists in insertion order, which is exactly
  the iteration order of a Python `dict`.
* Document values are modelled by the inductive type `Value` covering the JSON
  value shapes the store persists: strings, integers, booleans, null, nested
  objects and arrays.  Numbers are modelled as integers (the documents the
  repository stores carry string and integer fields).
* The Document Codec of the source is `json.dumps` / `json.loads` (Python's
  standard library, called from `add_row`, `get_all` and `find`).  `encodeVal`
  reproduces `json.dumps`'s output shape (including its default `", "` and
  `": "` separators and its backslash escapes for quotes, backslashes and
  control characters); `decodeDoc` is an executable JSON parser modelling
  `json.loads`.
* SQLite is modelled by explicit state: a table is the list of its `data`
  column values (TEXT blobs) in insertion order.  `find` in the source
  interpolates keys and values of the caller's query straight into SQL text;
  the embedding builds those exact fragment strings (`fragment`) and models the
  engine's evaluation by parsing each fragment back against the grammar of a
  single `json_extract(data, '$.path') = literal` comparison (`parseFragment`).
  A fragment outside that grammar (an unquoted Python string interpolated bare,
  a quote character escaping the SQL literal, a malformed field path) makes the
  statement behave in an engine-defined way that is not a clean conjunctive
  equality query; the embedding models every such fragment as the engine error
  `DBError.operationalError` (sqlite3.OperationalError).
* Exceptions are modelled with `Except DBError`: `KeyError` raised by
  `_check_table`, `sqlite3.OperationalError` raised by the engine,
  `sqlite3.ProgrammingError` raised when operating on a closed connection, and
  `json.JSONDecodeError` raised by `json.loads`.
-/

/-- `String.data` written short: the character list of a Lean string literal. -/
def chars (s : String) : List Char := s.data

/-- The double-quote character `"`. -/
def dquote : Char := Char.ofNat 34

/-- The single-quote character. -/
def squote : Char := Char.ofNat 39

/-- The backslash character. -/
def bslash : Char := Char.ofNat 92

/-- The opening curly brace character. -/
def lbrace : Char := Char.ofNat 123

/-- The closing curly brace character. -/
def rbrace : Char := Char.ofNat 125

/-- Document values: the JSON value shapes persisted by the store.
Objects keep their fields as an association list in Python-dict insertion
order; numbers are modelled as integers. -/
inductive Value where
  | vstr  (s : List Char)
  | vint  (n : Int)
  | vbool (b : Bool)
  | vnull
  | vobj  (fields : List (List Char × Value))
  | varr  (elems : List Value)
deriving Repr

/-- Decimal digit character for `n < 10`. -/
def digitChar (n : Nat) : Char := Char.ofNat (48 + n)

/-- Decimal digits with explicit fuel, so the definition is structurally
recursive and computes inside the kernel; the fuel only needs to exceed the
number being printed. -/
def natDigitsAux : Nat → Nat → List Char
  | 0, _ => []
  | fuel + 1, n =>
    if n < 10 then [digitChar n]
    else natDigitsAux fuel (n / 10) ++ [digitChar (n % 10)]

/-- Decimal digits of a natural number, most significant first
(Python `str(n)` for `n ≥ 0`). -/
def natDigits (n : Nat) : List Char := natDigitsAux (n + 1) n

/-- Python `str` of an integer: decimal digits with a leading `-` when negative. -/
def intRepr : Int → List Char
  | Int.ofNat n => natDigits n
  | Int.negSucc m => '-' :: natDigits (m + 1)

/-- Lowercase hexadecimal digit character for `n < 16`. -/
def hexDigit (n : Nat) : Char :=
  if n < 10 then Char.ofNat (48 + n) else Char.ofNat (87 + n)

/-- JSON escape of one character, as produced by `json.dumps`: double quotes and
backslashes get a backslash escape, the common control characters get their
short escapes, all other control characters get a `\u00xx` escape, everything
else is emitted literally. -/
def escapeChar (c : Char) : List Char :=
  if c = dquote then [bslash, dquote]
  else if c = bslash then [bslash, bslash]
  else if c = Char.ofNat 10 then [bslash, 'n']
  else if c = Char.ofNat 9 then [bslash, 't']
  else if c = Char.ofNat 13 then [bslash, 'r']
  else if c = Char.ofNat 8 then [bslash, 'b']
  else if c = Char.ofNat 12 then [bslash, 'f']
  else if c.toNat < 32 then
    [bslash, 'u', '0', '0', hexDigit (c.toNat / 16), hexDigit (c.toNat % 16)]
  else [c]

/-- JSON escape of a whole string body. -/
def escapeChars : List Char → List Char
  | [] => []
  | c :: rest => escapeChar c ++ escapeChars rest

/-- JSON encoding of a string: escaped body between double quotes. -/
def encodeStr (s : List Char) : List Char := dquote :: escapeChars s ++ [dquote]

mutual
/-- `json.dumps` of a document value, with Python's default separators
(`", "` between items, `": "` after a key). -/
def encodeVal : Value → List Char
  | .vstr s => encodeStr s
  | .vint n => intRepr n
  | .vbool true => chars "true"
  | .vbool false => chars "false"
  | .vnull => chars "null"
  | .vobj fs => lbrace :: encodeFields fs ++ [rbrace]
  | .varr es => '[' :: encodeElems es ++ [']']

/-- `json.dumps` of the fields of an object, comma-separated. -/
def encodeFields : List (List Char × Value) → List Char
  | [] => []
  | [(k, v)] => encodeStr k ++ ':' :: ' ' :: encodeVal v
  | (k, v) :: rest =>
      encodeStr k ++ ':' :: ' ' :: encodeVal v ++ ',' :: ' ' :: encodeFields rest

/-- `json.dumps` of the elements of an array, comma-separated. -/
def encodeElems : List Value → List Char
  | [] => []
  | [v] => encodeVal v
  | v :: rest => encodeVal v ++ ',' :: ' ' :: encodeElems rest
end

mutual
/-- The text SQLite's `json_extract` returns for a sub-object or sub-array:
the stored JSON with the whitespace between tokens removed.  SQLite copies
string tokens out of the stored blob verbatim (so the escapes written by
`json.dumps` are preserved — the same `escapeChar`) and joins the tokens with
bare `,` and `:`, dropping the spaces `json.dumps` put after them. -/
def encodeValMin : Value → List Char
  | .vstr s => encodeStr s
  | .vint n => intRepr n
  | .vbool true => chars "true"
  | .vbool false => chars "false"
  | .vnull => chars "null"
  | .vobj fs => lbrace :: encodeFieldsMin fs ++ [rbrace]
  | .varr es => '[' :: encodeElemsMin es ++ [']']

/-- Minified rendering of the fields of an object. -/
def encodeFieldsMin : List (List Char × Value) → List Char
  | [] => []
  | [(k, v)] => encodeStr k ++ ':' :: encodeValMin v
  | (k, v) :: rest =>
      encodeStr k ++ ':' :: encodeValMin v ++ ',' :: encodeFieldsMin rest

/-- Minified rendering of the elements of an array. -/
def encodeElemsMin : List Value → List Char
  | [] => []
  | [v] => encodeValMin v
  | v :: rest => encodeValMin v ++ ',' :: encodeElemsMin rest
end

/-- JSON whitespace characters (space, tab, newline, carriage return). -/
def isJsonWs (c : Char) : Bool :=
  c = ' ' || c = Char.ofNat 9 || c = Char.ofNat 10 || c = Char.ofNat 13

/-- Skip JSON whitespace. -/
def skipWs (s : List Char) : List Char := s.dropWhile isJsonWs

/-- Decimal digit test. -/
def isDigit (c : Char) : Bool := 48 ≤ c.toNat && c.toNat ≤ 57

/-- Numeric value of a list of decimal digit characters. -/
def digitsVal (ds : List Char) : Nat :=
  ds.foldl (fun acc c => acc * 10 + (c.toNat - 48)) 0

/-- Numeric value of a hexadecimal digit character. -/
def hexVal (c : Char) : Nat :=
  if isDigit c then c.toNat - 48
  else if 97 ≤ c.toNat && c.toNat ≤ 102 then c.toNat - 87
  else if 65 ≤ c.toNat && c.toNat ≤ 70 then c.toNat - 55
  else 0

/-- Parse the body of a JSON string after the opening double quote, undoing the
escapes of `escapeChar`; returns the decoded body and the remaining input after
the closing double quote. -/
def parseStrBody : List Char → Option (List Char × List Char)
  | [] => none
  | c :: rest =>
    if c = dquote then some ([], rest)
    else if c = bslash then
      match rest with
      | [] => none
      | e :: rest2 =>
        if e = dquote then (parseStrBody rest2).map (fun p => (dquote :: p.1, p.2))
        else if e = bslash then (parseStrBody rest2).map (fun p => (bslash :: p.1, p.2))
        else if e = '/' then (parseStrBody rest2).map (fun p => ('/' :: p.1, p.2))
        else if e = 'n' then (parseStrBody rest2).map (fun p => (Char.ofNat 10 :: p.1, p.2))
        else if e = 't' then (parseStrBody rest2).map (fun p => (Char.ofNat 9 :: p.1, p.2))
        else if e = 'r' then (parseStrBody rest2).map (fun p => (Char.ofNat 13 :: p.1, p.2))
        else if e = 'b' then (parseStrBody rest2).map (fun p => (Char.ofNat 8 :: p.1, p.2))
        else if e = 'f' then (parseStrBody rest2).map (fun p => (Char.ofNat 12 :: p.1, p.2))
        else if e = 'u' then
          match rest2 with
          | h1 :: h2 :: h3 :: h4 :: rest3 =>
            (parseStrBody rest3).map (fun p =>
              (Char.ofNat (((hexVal h1 * 16 + hexVal h2) * 16 + hexVal h3) * 16 + hexVal h4)
                 :: p.1, p.2))
          | _ => none
        else none
    else (parseStrBody rest).map (fun p => (c :: p.1, p.2))

/-- Parse a JSON integer (optional minus sign, then decimal digits) from the
head of the input; returns the value and the remaining input. -/
def parseIntTok (s : List Char) : Option (Int × List Char) :=
  match s with
  | [] => none
  | c :: rest =>
    if c = '-' then
      let ds := rest.takeWhile isDigit
      if ds.isEmpty then none
      else some (-(digitsVal ds : Int), rest.drop ds.length)
    else
      let ds := s.takeWhile isDigit
      if ds.isEmpty then none
      else some ((digitsVal ds : Int), s.drop ds.length)

mutual
/-- Fuel-indexed JSON value parser modelling `json.loads`: parses one JSON
value from the input (after skipping whitespace) and returns it with the
remaining input.  Fuel bounds the nesting recursion only; string, number and
whitespace scanning are structural. -/
def parseVal : Nat → List Char → Option (Value × List Char)
  | 0, _ => none
  | fuel + 1, s =>
    match skipWs s with
    | [] => none
    | c :: t =>
      if c = dquote then (parseStrBody t).map (fun p => (Value.vstr p.1, p.2))
      else if c = lbrace then
        (parseFields fuel (skipWs t)).map (fun p => (Value.vobj p.1, p.2))
      else if c = '[' then
        (parseElems fuel (skipWs t)).map (fun p => (Value.varr p.1, p.2))
      else if c = 't' then
        match t with
        | 'r' :: 'u' :: 'e' :: r => some (Value.vbool true, r)
        | _ => none
      else if c = 'f' then
        match t with
        | 'a' :: 'l' :: 's' :: 'e' :: r => some (Value.vbool false, r)
        | _ => none
      else if c = 'n' then
        match t with
        | 'u' :: 'l' :: 'l' :: r => some (Value.vnull, r)
        | _ => none
      else if c = '-' || isDigit c then
        (parseIntTok (c :: t)).map (fun p => (Value.vint p.1, p.2))
      else none

/-- Parse the fields of a JSON object after the opening brace (whitespace
already skipped): either a closing brace, or `"key": value` pairs separated by
commas. -/
def parseFields : Nat → List Char → Option (List (List Char × Value) × List Char)
  | 0, _ => none
  | fuel + 1, s =>
    match s with
    | [] => none
    | c :: t =>
      if c = rbrace then some ([], t)
      else if c = dquote then
        match parseStrBody t with
        | none => none
        | some (k, t2) =>
          match skipWs t2 with
          | ':' :: t3 =>
            match parseVal fuel t3 with
            | none => none
            | some (v, t4) =>
              match skipWs t4 with
              | ',' :: t5 =>
                match parseFields fuel (skipWs t5) with
                | some (fs, t6) => some ((k, v) :: fs, t6)
                | none => none
              | c2 :: t5 =>
                if c2 = rbrace then some ([(k, v)], t5) else none
              | [] => none
          | _ => none
      else none

/-- Parse the elements of a JSON array after the opening bracket (whitespace
already skipped): either a closing bracket, or values separated by commas. -/
def parseElems : Nat → List Char → Option (List Value × List Char)
  | 0, _ => none
  | fuel + 1, s =>
    match s with
    | [] => none
    | c :: t =>
      if c = ']' then some ([], t)
      else
        match parseVal fuel s with
        | none => none
        | some (v, t2) =>
          match skipWs t2 with
          | ',' :: t3 =>
            match parseElems fuel (skipWs t3) with
            | some (vs, t4) => some (v :: vs, t4)
            | none => none
          | c2 :: t3 => if c2 = ']' then some ([v], t3) else none
          | [] => none
end

mutual
/-- Fuel sufficient for `parseVal` to parse the encoding of a value. -/
def needV : Value → Nat
  | .vstr _ => 1
  | .vint _ => 1
  | .vbool _ => 1
  | .vnull => 1
  | .vobj fs => needF fs + 1
  | .varr es => needE es + 1

/-- Fuel sufficient for `parseFields` to parse the encoding of a field list. -/
def needF : List (List Char × Value) → Nat
  | [] => 1
  | (_, v) :: fs => max (needV v) (needF fs) + 1

/-- Fuel sufficient for `parseElems` to parse the encoding of an element list. -/
def needE : List Value → Nat
  | [] => 1
  | v :: es => max (needV v) (needE es) + 1
end

/-- `json.loads`: parse one JSON value and require that only whitespace
follows it. -/
def decodeDoc (s : List Char) : Option Value :=
  match parseVal (s.length + 1) s with
  | some (v, rest) => if (skipWs rest).isEmpty then some v else none
  | none => none

/-- Characters that may legally follow a complete value inside an encoded
document: nothing, a comma, a closing brace or a closing bracket. -/
def restOk : List Char → Bool
  | [] => true
  | c :: _ => c = ',' || c = rbrace || c = ']'

/-- Characters a well-formed encoding can start with never collide with the
delimiters of the enclosing object or array and are never whitespace. -/
def valHead (c : Char) : Bool :=
  !(isJsonWs c) && !(c = ']') && !(c = ',') && !(c = rbrace)

/-!  ## The database model (`DocumentDatabase` in `src/app/core/db.py`)  -/

/-- The exceptions the store's operations can raise:
`KeyError` from `_check_table`, `sqlite3.OperationalError` from the engine,
`sqlite3.ProgrammingError` from a closed connection, and
`json.JSONDecodeError` from `json.loads`. -/
inductive DBError where
  | keyError (msg : String)
  | operationalError
  | programmingError
  | jsonDecodeError
deriving Repr, DecidableEq

/-- The fixed registry of allowed tables (`DocumentDatabase.TABLES`); the
source maps each name to itself, so the registry is the list of names. -/
def TABLES : List String := ["issues", "rules"]

/-- The state of a `DocumentDatabase`: whether the SQLite connection is open,
and for each existing physical table its list of `data` column blobs in
insertion order. -/
structure DocumentDatabase where
  conn_open : Bool
  tables : List (String × List (List Char))
deriving Repr

/-- Association-list lookup on the physical tables. -/
def alook : List (String × List (List Char)) → String → Option (List (List Char))
  | [], _ => none
  | (k, v) :: rest, t => if k = t then some v else alook rest t

/-- Association-list update on the physical tables (the key is present). -/
def aset : List (String × List (List Char)) → String → List (List Char) →
    List (String × List (List Char))
  | [], _, _ => []
  | (k, v) :: rest, t, rows => if k = t then (k, rows) :: rest else (k, v) :: aset rest t rows

/-- `DocumentDatabase.__init__` on a fresh database file: the connection is
open and `CREATE TABLE IF NOT EXISTS` has produced one empty table per
registry entry. -/
def DocumentDatabase.init : DocumentDatabase :=
  ⟨true, TABLES.map (fun t => (t, []))⟩

/-- `DocumentDatabase._check_table`: raise
`KeyError(f"Table {table_name} not found")` when the name is not in the
registry. -/
def check_table (t : String) : Except DBError Unit :=
  if TABLES.contains t then Except.ok ()
  else Except.error (DBError.keyError ("Table " ++ t ++ " not found"))

/-- Decode every blob of a table (`json.loads` per row); the first failure
aborts, as an exception would. -/
def decodeAll : List (List Char) → Option (List Value)
  | [] => some []
  | b :: bs =>
    match decodeDoc b, decodeAll bs with
    | some v, some vs => some (v :: vs)
    | _, _ => none

/-- `DocumentDatabase.add_row`: `_check_table`, then
`INSERT INTO {table} VALUES (?)` with the `json.dumps` of the row bound as the
single parameter.  The engine raises `ProgrammingError` on a closed connection
and `OperationalError` when the physical table is missing. -/
def add_row (db : DocumentDatabase) (t : String) (row : Value) :
    Except DBError DocumentDatabase :=
  match check_table t with
  | Except.error e => Except.error e
  | Except.ok _ =>
    if db.conn_open = false then Except.error DBError.programmingError
    else
      match alook db.tables t with
      | none => Except.error DBError.operationalError
      | some rows => Except.ok ⟨db.conn_open, aset db.tables t (rows ++ [encodeVal row])⟩

/-- `DocumentDatabase.add_all`: `_check_table`, then `add_row` per row in
order; the first failure aborts, keeping the successful prefix. -/
def add_all (db : DocumentDatabase) (t : String) (rows : List Value) :
    Except DBError DocumentDatabase :=
  match check_table t with
  | Except.error e => Except.error e
  | Except.ok _ =>
    rows.foldl
      (fun acc row =>
        match acc with
        | Except.error e => Except.error e
        | Except.ok db' => add_row db' t row)
      (Except.ok db)

/-- `DocumentDatabase.get_all`: `_check_table`, then
`SELECT * FROM {table}` and `json.loads` of each row's `data` column. -/
def get_all (db : DocumentDatabase) (t : String) : Except DBError (List Value) :=
  match check_table t with
  | Except.error e => Except.error e
  | Except.ok _ =>
    if db.conn_open = false then Except.error DBError.programmingError
    else
      match alook db.tables t with
      | none => Except.error DBError.operationalError
      | some rows =>
        match decodeAll rows with
        | none => Except.error DBError.jsonDecodeError
        | some docs => Except.ok docs

/-!  ## The `find` machinery

`DocumentDatabase.find` iterates over the caller's query dict.  At each step
it first replaces the current entry's value by its single-quoted form when it
is a Python `str` (mutating the caller's dict in place), then interpolates
every entry of the dict, in its current state, into the SQL text
`SELECT * FROM {table} WHERE  json_extract(data, '$.{k}') = {v} AND ...`
and executes it, appending `json.loads` of every returned row to the result
list. -/

/-- A query value: the literal shapes the repository's callers put into a
query dict (strings and integers). -/
inductive QVal where
  | qstr (s : List Char)
  | qint (n : Int)
deriving Repr, DecidableEq

/-- The in-place mutation `query[k] = f"'{v}'"` applied when
`isinstance(v, str)`: wrap a string value in single quotes, leave any other
value unchanged. -/
def quoteIfStr : QVal → QVal
  | .qstr s => .qstr (squote :: s ++ [squote])
  | .qint n => .qint n

/-- The mutation applied to one query entry (the key is untouched). -/
def quoteKV (kv : List Char × QVal) : List Char × QVal := (kv.1, quoteIfStr kv.2)

/-- Python `f"{v}"` of a query value: a string's raw characters, an integer's
decimal representation. -/
def interpPy : QVal → List Char
  | .qstr s => s
  | .qint n => intRepr n

/-- The literal text `" json_extract(data, '$."` preceding the interpolated
field path in each WHERE fragment. -/
def fragPrefix : List Char := chars " json_extract(data, " ++ [squote, '$', '.']

/-- The literal text `"') = "` between the interpolated field path and the
interpolated value. -/
def fragMid : List Char := [squote, ')', ' ', '=', ' ']

/-- The WHERE fragment `f" json_extract(data, '$.{k}') = {v}"` built by
`find` for one query entry, by direct string interpolation. -/
def fragment (k : List Char) (v : QVal) : List Char :=
  fragPrefix ++ k ++ fragMid ++ interpPy v

/-- Characters allowed in a dot-separated identifier field path. -/
def isPathChar (c : Char) : Bool :=
  (65 ≤ c.toNat && c.toNat ≤ 90) || (97 ≤ c.toNat && c.toNat ≤ 122) ||
  isDigit c || c = '_' || c = '.'

/-- First character of an identifier: a letter or an underscore. -/
def isIdentStart (c : Char) : Bool :=
  (65 ≤ c.toNat && c.toNat ≤ 90) || (97 ≤ c.toNat && c.toNat ≤ 122) || c = '_'

/-- Split a field path at the dots: `"address.city"` becomes
`["address", "city"]`. -/
def splitDots : List Char → List (List Char)
  | [] => [[]]
  | c :: rest =>
    match splitDots rest with
    | p :: ps => if c = '.' then [] :: p :: ps else (c :: p) :: ps
    | [] => [[c]]

/-- Identifier continuation characters: letters, digits, underscore. -/
def isIdentChar (c : Char) : Bool :=
  (65 ≤ c.toNat && c.toNat ≤ 90) || (97 ≤ c.toNat && c.toNat ≤ 122) ||
  isDigit c || c = '_'

/-- One path segment is a non-empty identifier. -/
def isIdent (seg : List Char) : Bool :=
  match seg with
  | [] => false
  | c :: rest => isIdentStart c && rest.all isIdentChar

/-- A valid field path: dot-separated non-empty identifiers.  This is the
grammar under which `json_extract(data, '$.{path}')` addresses nested
document members the way the repository's callers expect; other paths make
the interpolated statement behave in an engine-defined way, modelled as an
engine error. -/
def validPath (k : List Char) : Bool := (splitDots k).all isIdent

/-- Strip an exact expected prefix from the input, or fail. -/
def dropExact : List Char → List Char → Option (List Char)
  | [], s => some s
  | _ :: _, [] => none
  | p :: ps, c :: s => if c = p then dropExact ps s else none

/-- Parse the body of a SQL single-quoted string literal that must extend to
the end of the fragment.  A doubled single quote is the SQL escape for one
quote character; a single quote followed by anything else ends the literal
early, leaving trailing text — a malformed fragment. -/
def parseQuoted : List Char → Option (List Char)
  | [] => none
  | c :: rest =>
    if c = squote then
      match rest with
      | [] => some []
      | c2 :: rest2 =>
        if c2 = squote then (parseQuoted rest2).map (fun b => squote :: b)
        else none
    else (parseQuoted rest).map (fun b => c :: b)

/-- A SQL comparison literal: an integer or a single-quoted text literal. -/
inductive SqlLit where
  | int (n : Int)
  | text (s : List Char)
deriving Repr, DecidableEq

/-- Parse the literal on the right-hand side of the `=` of a fragment, which
must occupy the fragment's whole tail: an optionally negated run of digits,
or a single-quoted string. -/
def parseSqlLit (s : List Char) : Option SqlLit :=
  match s with
  | [] => none
  | c :: rest =>
    if c = squote then (parseQuoted rest).map SqlLit.text
    else if c = '-' then
      if rest.isEmpty then none
      else if rest.all isDigit then some (SqlLit.int (-(digitsVal rest : Int)))
      else none
    else if (c :: rest).all isDigit then some (SqlLit.int (digitsVal (c :: rest)))
    else none

/-- Parse one interpolated WHERE fragment back against the grammar of a
single safe comparison `json_extract(data, '$.path') = literal`.  A fragment
whose interpolated key or value escapes this grammar (an unquoted string, a
quote inside a value, a malformed path) yields `none`: the SQL statement no
longer has the shape of a conjunctive equality query, and the engine's
behaviour on it is modelled as `DBError.operationalError`. -/
def parseFragment (s : List Char) : Option (List (List Char) × SqlLit) :=
  match dropExact fragPrefix s with
  | none => none
  | some s1 =>
    let path := s1.takeWhile isPathChar
    match dropExact fragMid (s1.drop path.length) with
    | none => none
    | some s2 =>
      if validPath path then (parseSqlLit s2).map (fun l => (splitDots path, l))
      else none

/-- Compile every entry of the query dict, in its current state, into a
parsed comparison; any malformed fragment poisons the whole statement. -/
def compileQuery : List (List Char × QVal) → Option (List (List (List Char) × SqlLit))
  | [] => some []
  | (k, v) :: rest =>
    match parseFragment (fragment k v), compileQuery rest with
    | some c, some cs => some (c :: cs)
    | _, _ => none

/-- Field lookup inside a document object. -/
def flook : List (List Char × Value) → List Char → Option Value
  | [], _ => none
  | (k, v) :: rest, p => if k = p then some v else flook rest p

/-- SQLite `json_extract` along a dot-separated path: `none` is SQL NULL
(missing member or a path into a non-object). -/
def extract : Value → List (List Char) → Option Value
  | v, [] => some v
  | .vobj fs, p :: ps =>
    match flook fs p with
    | some v => extract v ps
    | none => none
  | _, _ :: _ => none

/-- SQLite equality between the SQL value produced by `json_extract` and a
comparison literal: JSON strings compare as text, JSON integers as integers,
JSON booleans as the integers 0 and 1; SQL NULL (missing member, JSON null)
never compares equal; values of different SQL storage classes are unequal.
A sub-object or sub-array is returned by `json_extract` as its minified JSON
text (a plain TEXT value), so it compares equal to exactly that text literal
and never to an integer literal. -/
def jsqlEq : Option Value → SqlLit → Bool
  | none, _ => false
  | some (.vstr s), .text t => s = t
  | some (.vstr _), .int _ => false
  | some (.vint n), .int m => n = m
  | some (.vint _), .text _ => false
  | some (.vbool b), .int m => (if b then (1 : Int) else 0) = m
  | some (.vbool _), .text _ => false
  | some .vnull, _ => false
  | some (.vobj fs), .text t => encodeValMin (.vobj fs) = t
  | some (.vobj _), .int _ => false
  | some (.varr es), .text t => encodeValMin (.varr es) = t
  | some (.varr _), .int _ => false

/-- Execute `SELECT * FROM {t} WHERE {q}` for the current state of the query
dict: the closed-connection check of the `sqlite3` module, then SQL
compilation, then table resolution, then the scan.  `json_extract` parses
every scanned row's blob (a malformed blob is an engine error) and a row is
returned iff every comparison holds. -/
def executeStep (db : DocumentDatabase) (t : String)
    (q : List (List Char × QVal)) : Except DBError (List Value) :=
  if db.conn_open = false then Except.error DBError.programmingError
  else
    match compileQuery q with
    | none => Except.error DBError.operationalError
    | some cs =>
      match alook db.tables t with
      | none => Except.error DBError.operationalError
      | some rows =>
        match decodeAll rows with
        | none => Except.error DBError.operationalError
        | some docs =>
          Except.ok (docs.filter (fun d => cs.all (fun c => jsqlEq (extract d c.1) c.2)))

/-- The loop of `DocumentDatabase.find`: `done` holds the entries already
visited (and mutated), `todo` the entries still to visit, `acc` the result
rows gathered so far.  Each step quotes the current entry if it is a string,
executes the SELECT over the whole dict in its current state, and appends the
decoded matches.  The final state of the caller's dict is returned alongside
the result, since the mutation survives the call (and even an exception). -/
def findLoop (db : DocumentDatabase) (t : String) :
    List (List Char × QVal) → List (List Char × QVal) → List Value →
    Except DBError (List Value) × List (List Char × QVal)
  | done, [], acc => (Except.ok acc, done)
  | done, (k, v) :: todo, acc =>
    let v' := quoteIfStr v
    match executeStep db t (done ++ (k, v') :: todo) with
    | Except.error e => (Except.error e, done ++ (k, v') :: todo)
    | Except.ok ms => findLoop db t (done ++ [(k, v')]) todo (acc ++ ms)

/-- `DocumentDatabase.find`: no `_check_table` call — the loop starts
directly on the caller's query dict; an empty query does nothing at all and
returns the empty list. -/
def find (db : DocumentDatabase) (t : String) (q : List (List Char × QVal)) :
    Except DBError (List Value) × List (List Char × QVal) := findLoop db t [] q []

/-- `DocumentDatabase.close`: probe the connection with `SELECT 1`; if that
raises `ProgrammingError` the connection is already closed and the exception
is swallowed, otherwise close the connection. -/
def close (db : DocumentDatabase) : Except DBError DocumentDatabase :=
  if db.conn_open then Except.ok ⟨false, db.tables⟩
  else Except.ok db

/-!  ## Semantic view of a query, used to state what `find` computes  -/

/-- The comparison literal a query value denotes. -/
def litOf : QVal → SqlLit
  | .qstr s => .text s
  | .qint n => .int n

/-- A document satisfies one query entry: the value extracted at the entry's
field path equals the entry's literal. -/
def semMatch (d : Value) (kv : List Char × QVal) : Bool :=
  jsqlEq (extract d (splitDots kv.1)) (litOf kv.2)

/-- The stored documents satisfying every constraint of a query, in storage
order. -/
def matchedDocs (docs : List Value) (q : List (List Char × QVal)) : List Value :=
  docs.filter (fun d => q.all (semMatch d))

/-- The parsed comparisons a query denotes, entry by entry: the split field
path and the literal. -/
def constraintsOf (q : List (List Char × QVal)) : List (List (List Char) × SqlLit) :=
  q.map (fun kv => (splitDots kv.1, litOf kv.2))

/-- A query value is an integer. -/
def qvalInt : QVal → Bool
  | .qint _ => true
  | .qstr _ => false

/-- A query value contains no single quote (a string with one escapes the SQL
literal the mutation wraps around it). -/
def strNoQuote : QVal → Bool
  | .qstr s => !(s.contains squote)
  | .qint _ => true

/-- Queries on which the interpolated SQL of every loop step stays inside the
safe comparison grammar: every field path is a dot-separated identifier path,
every string value is quote-free, and only the first entry may be a string —
a string in any later position is interpolated unquoted into the very first
step's SQL (its own quoting only happens at its own iteration), which breaks
that statement. -/
def goodQuery (q : List (List Char × QVal)) : Bool :=
  q.all (fun kv => validPath kv.1 && strNoQuote kv.2) &&
  (q.drop 1).all (fun kv => qvalInt kv.2)

/-!  ## Concrete data for witnesses and counterexamples  -/

/-- The document `{"name": "a", "age": 5}` of the spec's query-correctness
scenario. -/
def docA : Value :=
  .vobj [(chars "name", .vstr (chars "a")), (chars "age", .vint 5)]

/-- The document `{"name": "b", "age": 5}` of the spec's query-correctness
scenario. -/
def docB : Value :=
  .vobj [(chars "name", .vstr (chars "b")), (chars "age", .vint 5)]

/-- The document `{"address": {"city": "X"}}` of the spec's nested-field
scenario, generalized over the city string. -/
def docAddr (s : List Char) : Value :=
  .vobj [(chars "address", .vobj [(chars "city", .vstr s)])]

/-- A database holding `docA` and `docB` in the registered collection
`issues` (the state after adding both to a fresh database). -/
def dbAB : DocumentDatabase :=
  ⟨true, [("issues", [encodeVal docA, encodeVal docB]), ("rules", [])]⟩

/-!  ## Support lemmas: digits, escapes, whitespace  -/

theorem isDigit_digitChar : ∀ n, n < 10 → isDigit (digitChar n) = true := by decide

theorem digitChar_toNat : ∀ n, n < 10 → (digitChar n).toNat = 48 + n := by decide

theorem hexVal_hexDigit : ∀ n, n < 16 → hexVal (hexDigit n) = n := by decide

theorem natDigitsAux_congr (n : Nat) :
    ∀ f1 f2, n < f1 → n < f2 → natDigitsAux f1 n = natDigitsAux f2 n := by
  induction n using Nat.strong_induction_on with
  | _ n ih =>
    intro f1 f2 h1 h2
    cases f1 with
    | zero => omega
    | succ g1 =>
      cases f2 with
      | zero => omega
      | succ g2 =>
        rw [natDigitsAux, natDigitsAux]
        split
        · rfl
        · next hn =>
          rw [ih (n / 10) (Nat.div_lt_self (by omega) (by omega)) g1 g2
            (by omega) (by omega)]

theorem natDigits_eq (n : Nat) :
    natDigits n = if n < 10 then [digitChar n]
      else natDigits (n / 10) ++ [digitChar (n % 10)] := by
  rw [natDigits, natDigitsAux]
  split
  · rfl
  · next hn =>
    rw [natDigits, natDigitsAux_congr (n / 10) n (n / 10 + 1)
      (by omega) (by omega)]

theorem natDigits_ne_nil (n : Nat) : natDigits n ≠ [] := by
  rw [natDigits_eq]
  split
  · simp
  · simp

theorem natDigits_all_digit (n : Nat) : (natDigits n).all isDigit = true := by
  induction n using Nat.strong_induction_on with
  | _ n ih =>
    rw [natDigits_eq]
    split
    · next h => simp [isDigit_digitChar n h]
    · next h =>
      simp only [List.all_append, List.all_cons, List.all_nil, Bool.and_true,
        Bool.and_eq_true]
      exact ⟨ih (n / 10) (Nat.div_lt_self (by omega) (by omega)),
        isDigit_digitChar (n % 10) (Nat.mod_lt n (by omega))⟩

theorem digitsVal_append_single (xs : List Char) (c : Char) :
    digitsVal (xs ++ [c]) = digitsVal xs * 10 + (c.toNat - 48) := by
  simp [digitsVal, List.foldl_append]

theorem digitsVal_natDigits (n : Nat) : digitsVal (natDigits n) = n := by
  induction n using Nat.strong_induction_on with
  | _ n ih =>
    rw [natDigits_eq]
    split
    · next h =>
      simp [digitsVal, digitChar_toNat n h]
    · next h =>
      rw [digitsVal_append_single, ih (n / 10) (Nat.div_lt_self (by omega) (by omega)),
        digitChar_toNat (n % 10) (Nat.mod_lt n (by omega))]
      omega

theorem takeWhile_append_of_all (p : Char → Bool) (xs ys : List Char)
    (h : xs.all p = true) : (xs ++ ys).takeWhile p = xs ++ ys.takeWhile p := by
  induction xs with
  | nil => simp
  | cons c rest ih =>
    simp only [List.all_cons, Bool.and_eq_true] at h
    simp [List.takeWhile_cons, h.1, ih h.2]

theorem takeWhile_eq_nil_of_head (p : Char → Bool) (ys : List Char)
    (h : ∀ c t, ys = c :: t → p c = false) : ys.takeWhile p = [] := by
  cases ys with
  | nil => rfl
  | cons c t => simp [List.takeWhile_cons, h c t rfl]

theorem skipWs_cons_not {c : Char} (s : List Char) (h : isJsonWs c = false) :
    skipWs (c :: s) = c :: s := by
  simp [skipWs, List.dropWhile_cons, h]

theorem skipWs_cons_space (s : List Char) : skipWs (' ' :: s) = skipWs s := by
  have h : isJsonWs ' ' = true := by decide
  simp [skipWs, List.dropWhile_cons, h]

theorem parseVal_ws_cons (fuel : Nat) (s : List Char) :
    parseVal fuel (' ' :: s) = parseVal fuel s := by
  cases fuel with
  | zero => simp [parseVal]
  | succ f =>
    have h : skipWs (' ' :: s) = skipWs s := skipWs_cons_space s
    simp only [parseVal, h]

theorem parseStrBody_escapeChar (c : Char) (X : List Char) :
    parseStrBody (escapeChar c ++ X) =
      (parseStrBody X).map (fun p => (c :: p.1, p.2)) := by
  by_cases h1 : c = dquote
  · subst h1
    rw [(by decide : escapeChar dquote = [bslash, dquote]), List.cons_append,
      List.cons_append, List.nil_append, parseStrBody.eq_def]
    simp +decide
  by_cases h2 : c = bslash
  · subst h2
    rw [(by decide : escapeChar bslash = [bslash, bslash]), List.cons_append,
      List.cons_append, List.nil_append, parseStrBody.eq_def]
    simp +decide
  by_cases h3 : c = Char.ofNat 10
  · subst h3
    rw [(by decide : escapeChar (Char.ofNat 10) = [bslash, 'n']), List.cons_append,
      List.cons_append, List.nil_append, parseStrBody.eq_def]
    simp +decide
  by_cases h4 : c = Char.ofNat 9
  · subst h4
    rw [(by decide : escapeChar (Char.ofNat 9) = [bslash, 't']), List.cons_append,
      List.cons_append, List.nil_append, parseStrBody.eq_def]
    simp +decide
  by_cases h5 : c = Char.ofNat 13
  · subst h5
    rw [(by decide : escapeChar (Char.ofNat 13) = [bslash, 'r']), List.cons_append,
      List.cons_append, List.nil_append, parseStrBody.eq_def]
    simp +decide
  by_cases h6 : c = Char.ofNat 8
  · subst h6
    rw [(by decide : escapeChar (Char.ofNat 8) = [bslash, 'b']), List.cons_append,
      List.cons_append, List.nil_append, parseStrBody.eq_def]
    simp +decide
  by_cases h7 : c = Char.ofNat 12
  · subst h7
    rw [(by decide : escapeChar (Char.ofNat 12) = [bslash, 'f']), List.cons_append,
      List.cons_append, List.nil_append, parseStrBody.eq_def]
    simp +decide
  by_cases h8 : c.toNat < 32
  · have e1 : escapeChar c =
        [bslash, 'u', '0', '0', hexDigit (c.toNat / 16), hexDigit (c.toNat % 16)] := by
      simp [escapeChar, h1, h2, h3, h4, h5, h6, h7, h8]
    have hhi : hexVal (hexDigit (c.toNat / 16)) = c.toNat / 16 :=
      hexVal_hexDigit _ (by omega)
    have hlo : hexVal (hexDigit (c.toNat % 16)) = c.toNat % 16 :=
      hexVal_hexDigit _ (by omega)
    rw [e1, List.cons_append, List.cons_append, List.cons_append, List.cons_append,
      List.cons_append, List.cons_append, List.nil_append, parseStrBody.eq_def]
    simp +decide [hhi, hlo]
    have harith : ((hexVal '0' * 16 + hexVal '0') * 16 + c.toNat / 16) * 16 + c.toNat % 16
        = c.toNat := by
      have h0 : hexVal '0' = 0 := by decide
      rw [h0]
      omega
    rw [harith, Char.ofNat_toNat]
  · have e1 : escapeChar c = [c] := by
      simp [escapeChar, h1, h2, h3, h4, h5, h6, h7, h8]
    rw [e1, List.singleton_append, parseStrBody.eq_def]
    simp [h1, h2]

theorem parseStrBody_escape (s rest : List Char) :
    parseStrBody (escapeChars s ++ dquote :: rest) = some (s, rest) := by
  induction s with
  | nil =>
    rw [(by rfl : escapeChars [] = []), List.nil_append, parseStrBody.eq_def]
    simp
  | cons c s' ih =>
    have : escapeChars (c :: s') ++ dquote :: rest =
        escapeChar c ++ (escapeChars s' ++ dquote :: rest) := by
      simp [escapeChars]
    rw [this, parseStrBody_escapeChar, ih]
    rfl

theorem not_eq_of_isDigit {d : Char} (h : isDigit d = true) {c : Char}
    (hc : isDigit c = false) : ¬(d = c) := by
  intro he
  subst he
  rw [h] at hc
  cases hc

theorem isJsonWs_false_of_isDigit {d : Char} (h : isDigit d = true) :
    isJsonWs d = false := by
  simp [isJsonWs, not_eq_of_isDigit h (by decide : isDigit ' ' = false),
    not_eq_of_isDigit h (by decide : isDigit (Char.ofNat 9) = false),
    not_eq_of_isDigit h (by decide : isDigit (Char.ofNat 10) = false),
    not_eq_of_isDigit h (by decide : isDigit (Char.ofNat 13) = false)]

theorem valHead_of_isDigit {d : Char} (h : isDigit d = true) : valHead d = true := by
  simp [valHead, isJsonWs_false_of_isDigit h,
    not_eq_of_isDigit h (by decide : isDigit ']' = false),
    not_eq_of_isDigit h (by decide : isDigit ',' = false),
    not_eq_of_isDigit h (by decide : isDigit rbrace = false)]

theorem natDigits_head (n : Nat) :
    ∃ d ds, natDigits n = d :: ds ∧ isDigit d = true := by
  have h1 := natDigits_ne_nil n
  have h2 := natDigits_all_digit n
  cases hd : natDigits n with
  | nil => exact absurd hd h1
  | cons d ds =>
    rw [hd] at h2
    simp only [List.all_cons, Bool.and_eq_true] at h2
    exact ⟨d, ds, rfl, h2.1⟩

theorem restOk_not_digit {rest : List Char} (hr : restOk rest = true) :
    rest.takeWhile isDigit = [] := by
  apply takeWhile_eq_nil_of_head
  intro c t he
  subst he
  simp only [restOk, Bool.or_eq_true, decide_eq_true_eq] at hr
  rcases hr with (h | h) | h <;> subst h <;> decide

theorem parseIntTok_intRepr (n : Int) (rest : List Char) (hr : restOk rest = true) :
    parseIntTok (intRepr n ++ rest) = some (n, rest) := by
  have hrest : rest.takeWhile isDigit = [] := restOk_not_digit hr
  cases n with
  | ofNat m =>
    obtain ⟨d, ds, hd, hdig⟩ := natDigits_head m
    have heq : natDigits m ++ rest = d :: (ds ++ rest) := by
      rw [hd]; rfl
    have htk : (d :: (ds ++ rest)).takeWhile isDigit = d :: ds := by
      rw [← heq, takeWhile_append_of_all isDigit _ _ (natDigits_all_digit m), hrest,
        List.append_nil, hd]
    have hdrop : (d :: (ds ++ rest)).drop (d :: ds).length = rest := by
      rw [← heq, ← hd, List.drop_left]
    have hval : digitsVal (d :: ds) = m := by
      rw [← hd, digitsVal_natDigits]
    have hnotneg : ¬(d = '-') := not_eq_of_isDigit hdig (by decide)
    rw [intRepr, heq, parseIntTok.eq_def]
    simp [hnotneg, htk, hval, hdrop]
  | negSucc m =>
    obtain ⟨d, ds, hd, hdig⟩ := natDigits_head (m + 1)
    have htk : (natDigits (m + 1) ++ rest).takeWhile isDigit = natDigits (m + 1) := by
      rw [takeWhile_append_of_all isDigit _ _ (natDigits_all_digit (m + 1)), hrest,
        List.append_nil]
    have hdrop : (natDigits (m + 1) ++ rest).drop (natDigits (m + 1)).length = rest :=
      List.drop_left _ _
    have hne : ((natDigits (m + 1) ++ rest).takeWhile isDigit).isEmpty = false := by
      rw [htk]
      simp [List.isEmpty_iff, natDigits_ne_nil (m + 1)]
    rw [intRepr, List.cons_append, parseIntTok.eq_def]
    simp [htk, hne, hdrop, digitsVal_natDigits]
    constructor
    · exact natDigits_ne_nil (m + 1)
    · rw [Int.negSucc_eq]
      ring

theorem encodeVal_head (v : Value) :
    ∃ c t, encodeVal v = c :: t ∧ valHead c = true := by
  cases v with
  | vstr s =>
    exact ⟨dquote, escapeChars s ++ [dquote], by simp [encodeVal, encodeStr], by decide⟩
  | vint n =>
    cases n with
    | ofNat m =>
      obtain ⟨d, ds, hd, hdig⟩ := natDigits_head m
      exact ⟨d, ds, by simp [encodeVal, intRepr, hd], valHead_of_isDigit hdig⟩
    | negSucc m =>
      exact ⟨'-', natDigits (m + 1), by simp [encodeVal, intRepr], by decide⟩
  | vbool b =>
    cases b with
    | true => exact ⟨'t', ['r', 'u', 'e'], by simp [encodeVal, chars], by decide⟩
    | false => exact ⟨'f', ['a', 'l', 's', 'e'], by simp [encodeVal, chars], by decide⟩
  | vnull => exact ⟨'n', ['u', 'l', 'l'], by simp [encodeVal, chars], by decide⟩
  | vobj fs =>
    exact ⟨lbrace, encodeFields fs ++ [rbrace], by simp [encodeVal], by decide⟩
  | varr es =>
    exact ⟨'[', encodeElems es ++ [']'], by simp [encodeVal], by decide⟩

theorem encodeFields_cons_head (k : List Char) (v : Value)
    (fs : List (List Char × Value)) :
    ∃ t, encodeFields ((k, v) :: fs) = dquote :: t := by
  cases fs with
  | nil =>
    exact ⟨escapeChars k ++ dquote :: ':' :: ' ' :: encodeVal v,
      by simp [encodeFields, encodeStr]⟩
  | cons f2 fs2 =>
    exact ⟨escapeChars k ++ dquote :: ':' :: ' ' ::
        (encodeVal v ++ ',' :: ' ' :: encodeFields (f2 :: fs2)),
      by simp [encodeFields, encodeStr]⟩

theorem encodeElems_cons_head (v : Value) (es : List Value) :
    ∃ c t, encodeElems (v :: es) = c :: t ∧ valHead c = true := by
  obtain ⟨c, t, hc, hv⟩ := encodeVal_head v
  cases es with
  | nil => exact ⟨c, t, by simp [encodeElems, hc], hv⟩
  | cons v2 es2 =>
    exact ⟨c, t ++ ',' :: ' ' :: encodeElems (v2 :: es2),
      by simp [encodeElems, hc], hv⟩

theorem one_le_needV (v : Value) : 1 ≤ needV v := by
  cases v <;> simp [needV]

theorem one_le_needF (fs : List (List Char × Value)) : 1 ≤ needF fs := by
  cases fs with
  | nil => simp [needF]
  | cons f fs2 =>
    cases f
    simp [needF]

theorem one_le_needE (es : List Value) : 1 ≤ needE es := by
  cases es with
  | nil => simp [needE]
  | cons v es2 => simp [needE]

theorem valHead_not_ws {c : Char} (h : valHead c = true) : isJsonWs c = false := by
  simp only [valHead, Bool.and_eq_true, Bool.not_eq_true'] at h
  exact h.1.1.1

theorem restOk_rbrace (t : List Char) : restOk (rbrace :: t) = true := by
  simp +decide [restOk]

theorem restOk_comma (t : List Char) : restOk (',' :: t) = true := by
  simp +decide [restOk]

theorem restOk_rbracket (t : List Char) : restOk (']' :: t) = true := by
  simp +decide [restOk]

theorem valHead_split {c : Char} (h : valHead c = true) :
    isJsonWs c = false ∧ ¬(c = ']') ∧ ¬(c = ',') ∧ ¬(c = rbrace) := by
  simp only [valHead, Bool.and_eq_true, Bool.not_eq_true'] at h
  obtain ⟨⟨⟨h1, h2⟩, h3⟩, h4⟩ := h
  exact ⟨h1, by simpa using h2, by simpa using h3, by simpa using h4⟩

mutual

theorem parseVal_encode (v : Value) (rest : List Char) (fuel : Nat)
    (hf : needV v ≤ fuel) (hr : restOk rest = true) :
    parseVal fuel (encodeVal v ++ rest) = some (v, rest) := by
  cases fuel with
  | zero =>
    have := one_le_needV v
    omega
  | succ f =>
    cases v with
    | vstr s =>
      have he : encodeVal (Value.vstr s) ++ rest
          = dquote :: (escapeChars s ++ dquote :: rest) := by
        simp [encodeVal, encodeStr]
      have hsk : skipWs (dquote :: (escapeChars s ++ dquote :: rest))
          = dquote :: (escapeChars s ++ dquote :: rest) :=
        skipWs_cons_not _ (by decide)
      rw [he, parseVal.eq_def]
      simp +decide [hsk, parseStrBody_escape]
    | vint n =>
      have he : encodeVal (Value.vint n) ++ rest = intRepr n ++ rest := by
        simp [encodeVal]
      cases n with
      | ofNat m =>
        obtain ⟨d, ds, hd, hdig⟩ := natDigits_head m
        have he2 : intRepr (Int.ofNat m) ++ rest = d :: (ds ++ rest) := by
          rw [intRepr, hd]; rfl
        have hsk : skipWs (d :: (ds ++ rest)) = d :: (ds ++ rest) :=
          skipWs_cons_not _ (isJsonWs_false_of_isDigit hdig)
        have htok : parseIntTok (d :: (ds ++ rest)) = some (Int.ofNat m, rest) := by
          rw [← he2, parseIntTok_intRepr _ _ hr]
        rw [he, he2, parseVal.eq_def]
        simp [hsk, hdig, htok,
          not_eq_of_isDigit hdig (by decide : isDigit dquote = false),
          not_eq_of_isDigit hdig (by decide : isDigit lbrace = false),
          not_eq_of_isDigit hdig (by decide : isDigit '[' = false),
          not_eq_of_isDigit hdig (by decide : isDigit 't' = false),
          not_eq_of_isDigit hdig (by decide : isDigit 'f' = false),
          not_eq_of_isDigit hdig (by decide : isDigit 'n' = false)]
      | negSucc m =>
        have he2 : intRepr (Int.negSucc m) ++ rest = '-' :: (natDigits (m + 1) ++ rest) := by
          rw [intRepr]; rfl
        have hsk : skipWs ('-' :: (natDigits (m + 1) ++ rest))
            = '-' :: (natDigits (m + 1) ++ rest) := skipWs_cons_not _ (by decide)
        have htok : parseIntTok ('-' :: (natDigits (m + 1) ++ rest))
            = some (Int.negSucc m, rest) := by
          rw [← he2, parseIntTok_intRepr _ _ hr]
        rw [he, he2, parseVal.eq_def]
        simp +decide [hsk, htok]
    | vbool b =>
      cases b with
      | true =>
        have he : encodeVal (Value.vbool true) ++ rest
            = 't' :: 'r' :: 'u' :: 'e' :: rest := by
          simp [encodeVal, chars]
        have hsk : skipWs ('t' :: 'r' :: 'u' :: 'e' :: rest)
            = 't' :: 'r' :: 'u' :: 'e' :: rest := skipWs_cons_not _ (by decide)
        rw [he, parseVal.eq_def]
        simp +decide [hsk]
      | false =>
        have he : encodeVal (Value.vbool false) ++ rest
            = 'f' :: 'a' :: 'l' :: 's' :: 'e' :: rest := by
          simp [encodeVal, chars]
        have hsk : skipWs ('f' :: 'a' :: 'l' :: 's' :: 'e' :: rest)
            = 'f' :: 'a' :: 'l' :: 's' :: 'e' :: rest := skipWs_cons_not _ (by decide)
        rw [he, parseVal.eq_def]
        simp +decide [hsk]
    | vnull =>
      have he : encodeVal Value.vnull ++ rest = 'n' :: 'u' :: 'l' :: 'l' :: rest := by
        simp [encodeVal, chars]
      have hsk : skipWs ('n' :: 'u' :: 'l' :: 'l' :: rest)
          = 'n' :: 'u' :: 'l' :: 'l' :: rest := skipWs_cons_not _ (by decide)
      rw [he, parseVal.eq_def]
      simp +decide [hsk]
    | vobj fs =>
      have he : encodeVal (Value.vobj fs) ++ rest
          = lbrace :: (encodeFields fs ++ rbrace :: rest) := by
        simp [encodeVal]
      have hsk : skipWs (lbrace :: (encodeFields fs ++ rbrace :: rest))
          = lbrace :: (encodeFields fs ++ rbrace :: rest) :=
        skipWs_cons_not _ (by decide)
      have hsk2 : skipWs (encodeFields fs ++ rbrace :: rest)
          = encodeFields fs ++ rbrace :: rest := by
        cases fs with
        | nil =>
          rw [(by rfl : encodeFields [] = []), List.nil_append]
          exact skipWs_cons_not _ (by decide)
        | cons kv fs2 =>
          obtain ⟨k, v⟩ := kv
          obtain ⟨t, ht⟩ := encodeFields_cons_head k v fs2
          rw [ht, List.cons_append]
          exact skipWs_cons_not _ (by decide)
      have hfF : needF fs ≤ f := by
        simp [needV] at hf
        omega
      rw [he, parseVal.eq_def]
      simp +decide [hsk, hsk2, parseFields_encode fs rest f hfF]
    | varr es =>
      have he : encodeVal (Value.varr es) ++ rest
          = '[' :: (encodeElems es ++ ']' :: rest) := by
        simp [encodeVal]
      have hsk : skipWs ('[' :: (encodeElems es ++ ']' :: rest))
          = '[' :: (encodeElems es ++ ']' :: rest) :=
        skipWs_cons_not _ (by decide)
      have hsk2 : skipWs (encodeElems es ++ ']' :: rest)
          = encodeElems es ++ ']' :: rest := by
        cases es with
        | nil =>
          rw [(by rfl : encodeElems [] = []), List.nil_append]
          exact skipWs_cons_not _ (by decide)
        | cons v2 es2 =>
          obtain ⟨c, t, hc, hv⟩ := encodeElems_cons_head v2 es2
          rw [hc, List.cons_append]
          exact skipWs_cons_not _ (valHead_not_ws hv)
      have hfE : needE es ≤ f := by
        simp [needV] at hf
        omega
      rw [he, parseVal.eq_def]
      simp +decide [hsk, hsk2, parseElems_encode es rest f hfE]

theorem parseFields_encode (fs : List (List Char × Value)) (rest : List Char) (fuel : Nat)
    (hf : needF fs ≤ fuel) :
    parseFields fuel (encodeFields fs ++ rbrace :: rest) = some (fs, rest) := by
  cases fuel with
  | zero =>
    have := one_le_needF fs
    omega
  | succ f =>
    cases fs with
    | nil =>
      rw [(by rfl : encodeFields [] = []), List.nil_append, parseFields.eq_def]
      simp +decide
    | cons kv fs2 =>
      obtain ⟨k, v⟩ := kv
      have hfv : needV v ≤ f := by
        simp [needF] at hf
        omega
      have hff : needF fs2 ≤ f := by
        simp [needF] at hf
        omega
      cases fs2 with
      | nil =>
        have he : encodeFields [(k, v)] ++ rbrace :: rest
            = dquote ::
              (escapeChars k ++ dquote :: (':' :: ' ' :: (encodeVal v ++ rbrace :: rest))) := by
          simp [encodeFields, encodeStr]
        have h1 := parseStrBody_escape k (':' :: ' ' :: (encodeVal v ++ rbrace :: rest))
        have hsk1 : skipWs (':' :: ' ' :: (encodeVal v ++ rbrace :: rest))
            = ':' :: ' ' :: (encodeVal v ++ rbrace :: rest) :=
          skipWs_cons_not _ (by decide)
        have h3 := parseVal_ws_cons f (encodeVal v ++ rbrace :: rest)
        have h2 := parseVal_encode v (rbrace :: rest) f hfv (restOk_rbrace rest)
        have hsk2 : skipWs (rbrace :: rest) = rbrace :: rest :=
          skipWs_cons_not _ (by decide)
        rw [he, parseFields.eq_def]
        simp +decide [h1, hsk1, h3, h2, hsk2]
      | cons kv2 fs3 =>
        obtain ⟨k2, v2⟩ := kv2
        have he : encodeFields ((k, v) :: (k2, v2) :: fs3) ++ rbrace :: rest
            = dquote :: (escapeChars k ++ dquote :: (':' :: ' ' ::
                (encodeVal v ++ ',' :: ' ' ::
                  (encodeFields ((k2, v2) :: fs3) ++ rbrace :: rest)))) := by
          simp [encodeFields, encodeStr]
        have h1 := parseStrBody_escape k (':' :: ' ' ::
          (encodeVal v ++ ',' :: ' ' :: (encodeFields ((k2, v2) :: fs3) ++ rbrace :: rest)))
        have hsk1 : skipWs (':' :: ' ' ::
            (encodeVal v ++ ',' :: ' ' :: (encodeFields ((k2, v2) :: fs3) ++ rbrace :: rest)))
            = ':' :: ' ' ::
              (encodeVal v ++ ',' :: ' ' :: (encodeFields ((k2, v2) :: fs3) ++ rbrace :: rest)) :=
          skipWs_cons_not _ (by decide)
        have h3 := parseVal_ws_cons f
          (encodeVal v ++ ',' :: ' ' :: (encodeFields ((k2, v2) :: fs3) ++ rbrace :: rest))
        have h2 := parseVal_encode v
          (',' :: ' ' :: (encodeFields ((k2, v2) :: fs3) ++ rbrace :: rest)) f hfv
          (restOk_comma _)
        have hsk2 : skipWs (',' :: ' ' :: (encodeFields ((k2, v2) :: fs3) ++ rbrace :: rest))
            = ',' :: ' ' :: (encodeFields ((k2, v2) :: fs3) ++ rbrace :: rest) :=
          skipWs_cons_not _ (by decide)
        have hsk3 : skipWs (' ' :: (encodeFields ((k2, v2) :: fs3) ++ rbrace :: rest))
            = encodeFields ((k2, v2) :: fs3) ++ rbrace :: rest := by
          rw [skipWs_cons_space]
          obtain ⟨t, ht⟩ := encodeFields_cons_head k2 v2 fs3
          rw [ht, List.cons_append]
          exact skipWs_cons_not _ (by decide)
        have hrec := parseFields_encode ((k2, v2) :: fs3) rest f hff
        rw [he, parseFields.eq_def]
        simp +decide [h1, hsk1, h3, h2, hsk2, hsk3, hrec]

theorem parseElems_encode (es : List Value) (rest : List Char) (fuel : Nat)
    (hf : needE es ≤ fuel) :
    parseElems fuel (encodeElems es ++ ']' :: rest) = some (es, rest) := by
  cases fuel with
  | zero =>
    have := one_le_needE es
    omega
  | succ f =>
    cases es with
    | nil =>
      rw [(by rfl : encodeElems [] = []), List.nil_append, parseElems.eq_def]
      simp +decide
    | cons v es2 =>
      obtain ⟨c, t, hc, hv⟩ := encodeVal_head v
      obtain ⟨hws, hbr, hcm, hbc⟩ := valHead_split hv
      have hfv : needV v ≤ f := by
        simp [needE] at hf
        omega
      have hfe : needE es2 ≤ f := by
        simp [needE] at hf
        omega
      cases es2 with
      | nil =>
        have he : encodeElems [v] ++ ']' :: rest = c :: (t ++ ']' :: rest) := by
          simp [encodeElems, hc]
        have hback : c :: (t ++ ']' :: rest) = encodeVal v ++ ']' :: rest := by
          rw [hc]; rfl
        have h2 := parseVal_encode v (']' :: rest) f hfv (restOk_rbracket rest)
        have hsk : skipWs (']' :: rest) = ']' :: rest := skipWs_cons_not _ (by decide)
        rw [he, parseElems.eq_def]
        simp +decide [hbr, hback, h2, hsk]
      | cons v2 es3 =>
        have he : encodeElems (v :: v2 :: es3) ++ ']' :: rest
            = c :: (t ++ ',' :: ' ' :: (encodeElems (v2 :: es3) ++ ']' :: rest)) := by
          simp [encodeElems, hc]
        have hback : c :: (t ++ ',' :: ' ' :: (encodeElems (v2 :: es3) ++ ']' :: rest))
            = encodeVal v ++ ',' :: ' ' :: (encodeElems (v2 :: es3) ++ ']' :: rest) := by
          rw [hc]; rfl
        have h2 := parseVal_encode v
          (',' :: ' ' :: (encodeElems (v2 :: es3) ++ ']' :: rest)) f hfv
          (restOk_comma _)
        have hsk2 : skipWs (',' :: ' ' :: (encodeElems (v2 :: es3) ++ ']' :: rest))
            = ',' :: ' ' :: (encodeElems (v2 :: es3) ++ ']' :: rest) :=
          skipWs_cons_not _ (by decide)
        have hsk3 : skipWs (' ' :: (encodeElems (v2 :: es3) ++ ']' :: rest))
            = encodeElems (v2 :: es3) ++ ']' :: rest := by
          rw [skipWs_cons_space]
          obtain ⟨c2, t2, hc2, hv2⟩ := encodeElems_cons_head v2 es3
          rw [hc2, List.cons_append]
          exact skipWs_cons_not _ (valHead_not_ws hv2)
        have hrec := parseElems_encode (v2 :: es3) rest f hfe
        rw [he, parseElems.eq_def]
        simp +decide [hbr, hback, h2, hsk2, hsk3, hrec]

end


theorem encodeStr_length (s : List Char) : 2 ≤ (encodeStr s).length := by
  simp [encodeStr]

mutual

theorem needV_le (v : Value) : needV v ≤ (encodeVal v).length + 1 := by
  cases v with
  | vstr s => simp [needV]
  | vint n => simp [needV]
  | vbool b => simp [needV]
  | vnull => simp [needV]
  | vobj fs =>
    have h := needF_le fs
    simp [needV, encodeVal]
    omega
  | varr es =>
    have h := needE_le es
    simp [needV, encodeVal]
    omega

theorem needF_le (fs : List (List Char × Value)) :
    needF fs ≤ (encodeFields fs).length + 1 := by
  cases fs with
  | nil => simp [needF, encodeFields]
  | cons kv fs2 =>
    obtain ⟨k, v⟩ := kv
    have hv := needV_le v
    have hk := encodeStr_length k
    cases fs2 with
    | nil =>
      simp [needF, needE, encodeFields]
      omega
    | cons kv2 fs3 =>
      have hf2 := needF_le (kv2 :: fs3)
      simp [needF, encodeFields] at hf2 ⊢
      omega

theorem needE_le (es : List Value) : needE es ≤ (encodeElems es).length + 2 := by
  cases es with
  | nil => simp [needE, encodeElems]
  | cons v es2 =>
    have hv := needV_le v
    cases es2 with
    | nil =>
      simp [needE, needF, encodeElems]
      omega
    | cons v2 es3 =>
      have he2 := needE_le (v2 :: es3)
      simp [needE, encodeElems] at he2 ⊢
      omega

end

theorem decode_encode (v : Value) : decodeDoc (encodeVal v) = some v := by
  have h := parseVal_encode v [] ((encodeVal v).length + 1)
    (le_trans (needV_le v) (by omega)) (by rfl)
  rw [List.append_nil] at h
  rw [decodeDoc, h]
  rfl

/-!  ## Lemmas about the `find` fragment machinery  -/

theorem dropExact_append (p s : List Char) : dropExact p (p ++ s) = some s := by
  induction p with
  | nil => rfl
  | cons c p2 ih => simp [dropExact, ih]

theorem splitDots_ne_nil (k : List Char) : splitDots k ≠ [] := by
  cases k with
  | nil => simp [splitDots]
  | cons c rest =>
    rw [splitDots]
    cases splitDots rest with
    | nil => simp
    | cons p ps =>
      by_cases hc : c = '.' <;> simp [hc]

theorem isPathChar_of_identChar {c : Char} (h : isIdentChar c = true) :
    isPathChar c = true := by
  simp only [isIdentChar, Bool.or_eq_true] at h
  simp only [isPathChar, Bool.or_eq_true]
  tauto

theorem identChar_of_identStart {c : Char} (h : isIdentStart c = true) :
    isIdentChar c = true := by
  simp only [isIdentStart, Bool.or_eq_true] at h
  simp only [isIdentChar, Bool.or_eq_true]
  tauto

theorem all_identChar_of_isIdent {seg : List Char} (h : isIdent seg = true) :
    seg.all isIdentChar = true := by
  cases seg with
  | nil => simp [isIdent] at h
  | cons c rest =>
    simp only [isIdent, Bool.and_eq_true] at h
    simp only [List.all_cons, Bool.and_eq_true]
    exact ⟨identChar_of_identStart h.1, h.2⟩

theorem all_pathChar_aux (k : List Char) :
    (match splitDots k with
     | p :: ps => p.all isIdentChar && ps.all isIdent
     | [] => true) = true → k.all isPathChar = true := by
  induction k with
  | nil => intro _; rfl
  | cons c rest ih =>
    intro h
    cases hs : splitDots rest with
    | nil => exact absurd hs (splitDots_ne_nil rest)
    | cons p ps =>
      have hsplit : splitDots (c :: rest)
          = if c = '.' then [] :: p :: ps else (c :: p) :: ps := by
        rw [splitDots, hs]
      by_cases hc : c = '.'
      · rw [hsplit, if_pos hc] at h
        simp only [List.all_cons, List.all_nil, Bool.true_and, Bool.and_eq_true] at h
        have hrest : rest.all isPathChar = true := by
          apply ih
          rw [hs]
          simp [all_identChar_of_isIdent h.1, h.2]
        subst hc
        simp [List.all_cons, hrest]
        decide
      · rw [hsplit, if_neg hc] at h
        simp only [List.all_cons, Bool.and_eq_true] at h
        obtain ⟨⟨hcc, hp⟩, hps⟩ := h
        have hrest : rest.all isPathChar = true := by
          apply ih
          rw [hs]
          simp [hp, hps]
        simp [List.all_cons, hrest, isPathChar_of_identChar hcc]

theorem all_pathChar_of_validPath {k : List Char} (h : validPath k = true) :
    k.all isPathChar = true := by
  apply all_pathChar_aux
  rw [validPath] at h
  cases hs : splitDots k with
  | nil => exact absurd hs (splitDots_ne_nil k)
  | cons p ps =>
    rw [hs] at h
    simp only [List.all_cons, Bool.and_eq_true] at h
    simp [all_identChar_of_isIdent h.1, h.2]

theorem parseQuoted_noquote (s : List Char) (h : s.contains squote = false) :
    parseQuoted (s ++ [squote]) = some s := by
  induction s with
  | nil =>
    rw [List.nil_append, parseQuoted.eq_def]
    simp
  | cons c s2 ih =>
    simp only [List.contains_cons, Bool.or_eq_false_iff] at h
    have hc : ¬(c = squote) := by
      intro he
      subst he
      simp at h
    rw [List.cons_append, parseQuoted.eq_def]
    simp only [if_neg hc]
    rw [ih (by simpa using h.2)]
    rfl

theorem parseSqlLit_intRepr (n : Int) : parseSqlLit (intRepr n) = some (SqlLit.int n) := by
  cases n with
  | ofNat m =>
    obtain ⟨d, ds, hd, hdig⟩ := natDigits_head m
    have he : intRepr (Int.ofNat m) = d :: ds := by
      rw [intRepr, hd]
    have hall : (d :: ds).all isDigit = true := by
      rw [← hd]
      exact natDigits_all_digit m
    have hval : digitsVal (d :: ds) = m := by
      rw [← hd, digitsVal_natDigits]
    rw [he, parseSqlLit.eq_def]
    simp only [if_neg (not_eq_of_isDigit hdig (by decide : isDigit squote = false)),
      if_neg (not_eq_of_isDigit hdig (by decide : isDigit '-' = false)), hall, if_pos rfl,
      hval]
    rfl
  | negSucc m =>
    have he : intRepr (Int.negSucc m) = '-' :: natDigits (m + 1) := by
      rw [intRepr]
    have hne : (natDigits (m + 1)).isEmpty = false := by
      simp [List.isEmpty_iff, natDigits_ne_nil (m + 1)]
    rw [he, parseSqlLit.eq_def]
    simp +decide [hne, natDigits_all_digit (m + 1), digitsVal_natDigits]
    rw [Int.negSucc_eq]
    ring

theorem fragment_assoc (k : List Char) (v : QVal) :
    fragment k v = fragPrefix ++ (k ++ (fragMid ++ interpPy v)) := by
  simp [fragment]

theorem takeWhile_fragMid (k : List Char) (X : List Char)
    (hk : k.all isPathChar = true) :
    (k ++ (fragMid ++ X)).takeWhile isPathChar = k := by
  rw [takeWhile_append_of_all isPathChar k _ hk]
  rw [(by rfl : fragMid ++ X = squote :: ([')', ' ', '=', ' '] ++ X))]
  rw [takeWhile_eq_nil_of_head isPathChar _ (by intro c t he; cases he; decide),
    List.append_nil]

theorem parseFragment_eval (k : List Char) (v : QVal) (hk : validPath k = true) :
    parseFragment (fragment k v)
      = (parseSqlLit (interpPy v)).map (fun l => (splitDots k, l)) := by
  rw [fragment_assoc, parseFragment, dropExact_append]
  have htk := takeWhile_fragMid k (interpPy v) (all_pathChar_of_validPath hk)
  simp only [htk]
  rw [List.drop_left, dropExact_append]
  simp [hk]

theorem parseFragment_int (k : List Char) (n : Int) (hk : validPath k = true) :
    parseFragment (fragment k (QVal.qint n)) = some (splitDots k, SqlLit.int n) := by
  rw [parseFragment_eval k _ hk]
  rw [(by rfl : interpPy (QVal.qint n) = intRepr n), parseSqlLit_intRepr]
  rfl

theorem parseFragment_text (k s : List Char) (hk : validPath k = true)
    (hs : s.contains squote = false) :
    parseFragment (fragment k (quoteIfStr (QVal.qstr s)))
      = some (splitDots k, SqlLit.text s) := by
  rw [(by rfl : quoteIfStr (QVal.qstr s) = QVal.qstr (squote :: s ++ [squote]))]
  rw [parseFragment_eval k _ hk]
  rw [(by rfl : interpPy (QVal.qstr (squote :: s ++ [squote])) = squote :: (s ++ [squote]))]
  rw [parseSqlLit.eq_def]
  simp only [if_pos rfl]
  rw [parseQuoted_noquote s hs]
  rfl

theorem compileQuery_append {a b : List (List Char × QVal)}
    {ca cb : List (List (List Char) × SqlLit)}
    (ha : compileQuery a = some ca) (hb : compileQuery b = some cb) :
    compileQuery (a ++ b) = some (ca ++ cb) := by
  induction a generalizing ca with
  | nil =>
    simp [compileQuery] at ha
    subst ha
    simpa using hb
  | cons kv a2 ih =>
    obtain ⟨k, v⟩ := kv
    rw [compileQuery] at ha
    cases hf : parseFragment (fragment k v) with
    | none => rw [hf] at ha; cases ha
    | some c =>
      rw [hf] at ha
      cases hca : compileQuery a2 with
      | none => rw [hca] at ha; cases ha
      | some cs =>
        rw [hca] at ha
        injection ha with ha
        subst ha
        rw [List.cons_append, compileQuery, hf, ih hca]
        rfl

theorem compileQuery_mutated (q : List (List Char × QVal))
    (hq : q.all (fun kv => validPath kv.1 && strNoQuote kv.2) = true) :
    compileQuery (q.map quoteKV) = some (constraintsOf q) := by
  induction q with
  | nil => rfl
  | cons kv q2 ih =>
    obtain ⟨k, v⟩ := kv
    simp only [List.all_cons, Bool.and_eq_true] at hq
    obtain ⟨⟨hk, hs⟩, hq2⟩ := hq
    have hfrag : parseFragment (fragment k (quoteIfStr v)) = some (splitDots k, litOf v) := by
      cases v with
      | qstr s =>
        have hns : s.contains squote = false := by
          simpa [strNoQuote] using hs
        rw [parseFragment_text k s hk hns]
        rfl
      | qint n =>
        rw [(by rfl : quoteIfStr (QVal.qint n) = QVal.qint n), parseFragment_int k n hk]
        rfl
    show compileQuery ((k, quoteIfStr v) :: List.map quoteKV q2) = _
    rw [compileQuery, hfrag, ih hq2]
    rfl

theorem compileQuery_ints (q : List (List Char × QVal))
    (hq : q.all (fun kv => validPath kv.1) = true)
    (hi : q.all (fun kv => qvalInt kv.2) = true) :
    compileQuery q = some (constraintsOf q) := by
  induction q with
  | nil => rfl
  | cons kv q2 ih =>
    obtain ⟨k, v⟩ := kv
    simp only [List.all_cons, Bool.and_eq_true] at hq hi
    cases v with
    | qstr s => exact Bool.noConfusion hi.1
    | qint n =>
      rw [compileQuery, parseFragment_int k n hq.1, ih hq.2 hi.2]
      rfl

theorem decodeAll_map_encode (docs : List Value) :
    decodeAll (docs.map encodeVal) = some docs := by
  induction docs with
  | nil => rfl
  | cons d ds ih => rw [List.map_cons, decodeAll, decode_encode, ih]

theorem all_constraintsOf (d : Value) (q : List (List Char × QVal)) :
    (constraintsOf q).all (fun c => jsqlEq (extract d c.1) c.2) = q.all (semMatch d) := by
  induction q with
  | nil => rfl
  | cons kv q2 ih =>
    obtain ⟨k, v⟩ := kv
    simp only [constraintsOf, List.map_cons, List.all_cons] at ih ⊢
    rw [ih]
    rfl

theorem filter_constraintsOf (docs : List Value) (q : List (List Char × QVal)) :
    docs.filter (fun d => (constraintsOf q).all (fun c => jsqlEq (extract d c.1) c.2))
      = matchedDocs docs q := by
  rw [matchedDocs]
  apply List.filter_congr
  intro d _
  exact all_constraintsOf d q

theorem executeStep_some (db : DocumentDatabase) (t : String)
    (q : List (List Char × QVal)) (cs : List (List (List Char) × SqlLit))
    (docs : List Value) (hconn : db.conn_open = true)
    (htab : alook db.tables t = some (docs.map encodeVal))
    (hcs : compileQuery q = some cs) :
    executeStep db t q
      = Except.ok (docs.filter (fun d => cs.all (fun c => jsqlEq (extract d c.1) c.2))) := by
  rw [executeStep]
  simp [hconn, hcs, htab, decodeAll_map_encode]

theorem goodQuery_parts (q1 q2 : List (List Char × QVal)) (k : List Char) (v : QVal)
    (hg : goodQuery (q1 ++ (k, v) :: q2) = true) :
    (q1 ++ [(k, v)]).all (fun kv => validPath kv.1 && strNoQuote kv.2) = true ∧
    q2.all (fun kv => validPath kv.1) = true ∧
    q2.all (fun kv => qvalInt kv.2) = true ∧
    goodQuery ((q1 ++ [(k, v)]) ++ q2) = true := by
  rw [goodQuery, Bool.and_eq_true] at hg
  obtain ⟨hA, hB⟩ := hg
  simp only [List.all_append, List.all_cons, Bool.and_eq_true] at hA
  obtain ⟨h1, h2, h3⟩ := hA
  refine ⟨?_, ?_, ?_, ?_⟩
  · simp only [List.all_append, List.all_cons, List.all_nil, Bool.and_eq_true]
    exact ⟨h1, h2, trivial⟩
  · simp only [List.all_eq_true] at h3 ⊢
    intro kv hkv
    have h4 := h3 kv hkv
    rw [Bool.and_eq_true] at h4
    exact h4.1
  · cases q1 with
    | nil =>
      rw [List.nil_append, List.drop_succ_cons, List.drop_zero] at hB
      exact hB
    | cons x q1' =>
      simp only [List.cons_append, List.drop_succ_cons, List.drop_zero] at hB
      simp only [List.all_append, List.all_cons, Bool.and_eq_true] at hB
      exact hB.2.2
  · rw [goodQuery, Bool.and_eq_true]
    constructor
    · simp only [List.all_append, List.all_cons, List.all_nil, Bool.and_eq_true]
      exact ⟨⟨h1, h2, trivial⟩, h3⟩
    · have he : (q1 ++ [(k, v)]) ++ q2 = q1 ++ (k, v) :: q2 := by simp
      rw [he]
      exact hB

theorem findLoop_good (db : DocumentDatabase) (t : String) (docs : List Value)
    (hconn : db.conn_open = true)
    (htab : alook db.tables t = some (docs.map encodeVal)) :
    ∀ (q2 q1 : List (List Char × QVal)) (acc : List Value),
      goodQuery (q1 ++ q2) = true →
      findLoop db t (List.map quoteKV q1) q2 acc
        = (Except.ok (acc ++
              (List.replicate q2.length (matchedDocs docs (q1 ++ q2))).flatten),
           List.map quoteKV (q1 ++ q2)) := by
  intro q2
  induction q2 with
  | nil =>
    intro q1 acc _
    rw [findLoop]
    simp
  | cons kv q2' ih =>
    intro q1 acc hg
    obtain ⟨k, v⟩ := kv
    obtain ⟨hmut, hvp, hint, hg'⟩ := goodQuery_parts q1 q2' k v hg
    have e1 : List.map quoteKV q1 ++ (k, quoteIfStr v) :: q2'
        = List.map quoteKV (q1 ++ [(k, v)]) ++ q2' := by
      simp [quoteKV]
    have hcomp : compileQuery (List.map quoteKV q1 ++ (k, quoteIfStr v) :: q2')
        = some (constraintsOf (q1 ++ (k, v) :: q2')) := by
      rw [e1]
      have c1 := compileQuery_mutated (q1 ++ [(k, v)]) hmut
      have c2 := compileQuery_ints q2' hvp hint
      rw [compileQuery_append c1 c2]
      congr 1
      simp [constraintsOf]
    have hstep := executeStep_some db t (List.map quoteKV q1 ++ (k, quoteIfStr v) :: q2')
      _ docs hconn htab hcomp
    rw [filter_constraintsOf] at hstep
    simp only [findLoop, hstep]
    have e2 : List.map quoteKV q1 ++ [(k, quoteIfStr v)]
        = List.map quoteKV (q1 ++ [(k, v)]) := by
      simp [quoteKV]
    rw [e2, ih (q1 ++ [(k, v)]) (acc ++ matchedDocs docs (q1 ++ (k, v) :: q2')) hg']
    have e3 : (q1 ++ [(k, v)]) ++ q2' = q1 ++ (k, v) :: q2' := by simp
    rw [e3]
    simp [List.replicate_succ, List.append_assoc]

theorem find_good (db : DocumentDatabase) (t : String) (docs : List Value)
    (q : List (List Char × QVal)) (hconn : db.conn_open = true)
    (htab : alook db.tables t = some (docs.map encodeVal))
    (hq : goodQuery q = true) :
    find db t q
      = (Except.ok ((List.replicate q.length (matchedDocs docs q)).flatten),
         List.map quoteKV q) := by
  have h := findLoop_good db t docs hconn htab q [] [] (by simpa using hq)
  simpa [find] using h

theorem findLoop_mutates (db : DocumentDatabase) (t : String) :
    ∀ (todo done : List (List Char × QVal)) (acc : List Value) (r : List Value),
      (findLoop db t done todo acc).1 = Except.ok r →
      (findLoop db t done todo acc).2 = done ++ List.map quoteKV todo := by
  intro todo
  induction todo with
  | nil =>
    intro done acc r _
    simp [findLoop]
  | cons kv todo2 ih =>
    intro done acc r h
    obtain ⟨k, v⟩ := kv
    cases he : executeStep db t (done ++ (k, quoteIfStr v) :: todo2) with
    | error e =>
      simp only [findLoop, he] at h
      exact Except.noConfusion h
    | ok ms =>
      simp only [findLoop, he] at h ⊢
      rw [ih (done ++ [(k, quoteIfStr v)]) (acc ++ ms) r h]
      simp [quoteKV]

theorem alook_aset (ts : List (String × List (List Char))) (t : String)
    (rows rows' : List (List Char)) (h : alook ts t = some rows) :
    alook (aset ts t rows') t = some rows' := by
  induction ts with
  | nil => cases h
  | cons kv ts2 ih =>
    obtain ⟨k, v⟩ := kv
    by_cases hk : k = t
    · simp [alook, aset, hk]
    · rw [alook, if_neg hk] at h
      rw [aset, if_neg hk, alook, if_neg hk]
      exact ih h

theorem decodeAll_append (a b : List (List Char)) (va vb : List Value)
    (ha : decodeAll a = some va) (hb : decodeAll b = some vb) :
    decodeAll (a ++ b) = some (va ++ vb) := by
  induction a generalizing va with
  | nil =>
    rw [(by rfl : decodeAll [] = some [])] at ha
    injection ha with ha
    subst ha
    simpa using hb
  | cons x a2 ih =>
    rw [decodeAll] at ha
    cases hx : decodeDoc x with
    | none => rw [hx] at ha; cases ha
    | some v =>
      rw [hx] at ha
      cases ha2 : decodeAll a2 with
      | none => rw [ha2] at ha; cases ha
      | some vs =>
        rw [ha2] at ha
        injection ha with ha
        subst ha
        rw [List.cons_append, decodeAll, hx, ih vs ha2]
        rfl

theorem check_table_ok {t : String} {u : Unit} (h : check_table t = Except.ok u) :
    TABLES.contains t = true := by
  rw [check_table] at h
  by_cases hc : TABLES.contains t
  · exact hc
  · rw [if_neg hc] at h
    cases h

theorem add_row_ok_inv {db db' : DocumentDatabase} {t : String} {d : Value}
    (h : add_row db t d = Except.ok db') :
    TABLES.contains t = true ∧ db.conn_open = true ∧
    ∃ rows, alook db.tables t = some rows ∧
      db' = ⟨true, aset db.tables t (rows ++ [encodeVal d])⟩ := by
  rw [add_row] at h
  cases hct : check_table t with
  | error e => simp only [hct] at h; exact Except.noConfusion h
  | ok u =>
    simp only [hct] at h
    have hreg := check_table_ok hct
    cases hco : db.conn_open with
    | false => simp [hco] at h
    | true =>
      simp only [hco, Bool.true_eq_false, if_false] at h
      cases halk : alook db.tables t with
      | none => simp only [halk] at h; exact Except.noConfusion h
      | some rows =>
        simp only [halk] at h
        injection h with h
        subst h
        exact ⟨hreg, rfl, rows, rfl, rfl⟩

theorem get_all_ok_inv {db : DocumentDatabase} {t : String} {vs : List Value}
    (h : get_all db t = Except.ok vs) :
    ∃ rows, alook db.tables t = some rows ∧ decodeAll rows = some vs := by
  rw [get_all] at h
  cases hct : check_table t with
  | error e => simp only [hct] at h; exact Except.noConfusion h
  | ok u =>
    simp only [hct] at h
    cases hco : db.conn_open with
    | false => simp [hco] at h
    | true =>
      simp only [hco, Bool.true_eq_false, if_false] at h
      cases halk : alook db.tables t with
      | none => simp only [halk] at h; exact Except.noConfusion h
      | some rows =>
        simp only [halk] at h
        cases hda : decodeAll rows with
        | none => simp only [hda] at h; exact Except.noConfusion h
        | some docs =>
          simp only [hda] at h
          injection h with h
          subst h
          exact ⟨rows, rfl, hda⟩

/-!  ## Claim theorems  -/

/-- Claim C1, counterexample: with `{"name":"a","age":5}` and `{"name":"b","age":5}`
stored, `find` with the two-constraint query `{"name": "a", "age": 5}` returns the
first document twice — once per loop iteration — not "each matching document
appearing once" as the claim states. -/
theorem find_two_constraints_duplicates :
    (find dbAB "issues"
        [(chars "name", QVal.qstr (chars "a")), (chars "age", QVal.qint 5)]).1
      = Except.ok [docA, docA] ∧ ¬([docA, docA] = [docA]) := by
  refine ⟨rfl, ?_⟩
  intro h
  exact absurd (congrArg List.length h) (by decide)

/-- Claim C1, amended: for a query whose field paths are dot-separated
identifier paths, whose string values are quote-free, and whose entries after
the first are integers (a string in a later position reaches the first SQL
statement unquoted and the engine rejects it), `find` over a table storing
`docs` returns the documents satisfying every constraint once per query
constraint — `q.length` copies of the matched set, concatenated — and leaves
the query dict with every string value quoted in place.  On the claim's own
scenario the single-constraint queries behave as stated and the two-constraint
query returns the first document twice. -/
theorem find_good_query_once_per_constraint (db : DocumentDatabase) (t : String)
    (docs : List Value) (q : List (List Char × QVal))
    (hconn : db.conn_open = true)
    (htab : alook db.tables t = some (docs.map encodeVal))
    (hq : goodQuery q = true) :
    find db t q
      = (Except.ok ((List.replicate q.length (matchedDocs docs q)).flatten),
         List.map quoteKV q) :=
  find_good db t docs q hconn htab hq

/-- Witness for the amended claim C1 at the spec's own scenario: the query
`{"age": 5}` returns both stored documents once each. -/
theorem find_good_query_once_per_constraint_witness :
    dbAB.conn_open = true ∧
    alook dbAB.tables "issues" = some ([docA, docB].map encodeVal) ∧
    goodQuery [(chars "age", QVal.qint 5)] = true ∧
    find dbAB "issues" [(chars "age", QVal.qint 5)]
      = (Except.ok [docA, docB], [(chars "age", QVal.qint 5)]) :=
  ⟨rfl, rfl, by decide,
   find_good_query_once_per_constraint dbAB "issues" [docA, docB]
     [(chars "age", QVal.qint 5)] rfl rfl (by decide)⟩

/-- Claim C2, code-bug evidence: `find` never calls `_check_table`.  On the
unregistered collection `bogus` an empty query silently returns `[]` (no
`KeyError`), a non-empty query reaches the engine and fails with
`sqlite3.OperationalError` (`no such table`), while `_check_table` itself
would have raised the claimed `KeyError`. -/
theorem find_skips_registry_check :
    find DocumentDatabase.init "bogus" [] = (Except.ok [], []) ∧
    (find DocumentDatabase.init "bogus" [(chars "age", QVal.qint 5)]).1
      = Except.error DBError.operationalError ∧
    check_table "bogus"
      = Except.error (DBError.keyError "Table bogus not found") :=
  ⟨rfl, rfl, rfl⟩

/-- Claim C3, code-bug evidence: the value `'; DROP TABLE items; --` used as a
query value is interpolated (after quoting) straight into the WHERE fragment,
whose text then no longer parses as a single `json_extract(data, path) =
literal` comparison — the quote characters alter the structure of the SQL
statement, and `find` on such a query does not evaluate it as an equality
constraint (modelled as the engine error). -/
theorem find_injection_alters_fragment :
    parseFragment (fragment (chars "name")
        (quoteIfStr (QVal.qstr (squote :: chars "; DROP TABLE items; --")))) = none ∧
    (find dbAB "issues"
        [(chars "name", QVal.qstr (squote :: chars "; DROP TABLE items; --"))]).1
      = Except.error DBError.operationalError :=
  ⟨rfl, rfl⟩

/-- Claim C4: the document codec round-trips — decoding the `json.dumps`
encoding of any representable document returns the document unchanged. -/
theorem decode_encode_roundtrip (d : Value) : decodeDoc (encodeVal d) = some d :=
  decode_encode d

/-- Claim C5: `add_row` on an unregistered collection fails with the
`KeyError` of `_check_table` before any storage mutation; on a registered
collection with the table present it appends the serialized document as a new
row, unconditionally — duplicates are permitted. -/
theorem add_row_registry_and_append (db : DocumentDatabase) (t : String) (d : Value) :
    (TABLES.contains t = false →
      add_row db t d
        = Except.error (DBError.keyError ("Table " ++ t ++ " not found"))) ∧
    (∀ rows, TABLES.contains t = true → db.conn_open = true →
      alook db.tables t = some rows →
      add_row db t d = Except.ok ⟨true, aset db.tables t (rows ++ [encodeVal d])⟩) := by
  constructor
  · intro h
    rw [add_row, check_table, if_neg (by simpa using h)]
  · intro rows h1 h2 h3
    have hmem : t ∈ TABLES := by simpa using h1
    rw [add_row, check_table]
    simp [hmem, h2, h3]

/-- Witness for claim C5 on a fresh database: `bogus` is rejected with the
`KeyError`, `issues` gets the row appended. -/
theorem add_row_registry_and_append_witness :
    TABLES.contains "bogus" = false ∧
    add_row DocumentDatabase.init "bogus" docA
      = Except.error (DBError.keyError "Table bogus not found") ∧
    TABLES.contains "issues" = true ∧
    DocumentDatabase.init.conn_open = true ∧
    alook DocumentDatabase.init.tables "issues" = some [] ∧
    add_row DocumentDatabase.init "issues" docA
      = Except.ok ⟨true, [("issues", [encodeVal docA]), ("rules", [])]⟩ :=
  ⟨rfl,
   (add_row_registry_and_append DocumentDatabase.init "bogus" docA).1 rfl,
   rfl, rfl, rfl,
   (add_row_registry_and_append DocumentDatabase.init "issues" docA).2 [] rfl rfl rfl⟩

/-- Claim C6: after a successful `add_row c d`, `get_all c` returns the
previous contents followed by `d` — in particular it contains a document equal
to `d`. -/
theorem get_all_after_add_row (db db' : DocumentDatabase) (c : String) (d : Value)
    (vs : List Value) (hget : get_all db c = Except.ok vs)
    (hadd : add_row db c d = Except.ok db') :
    get_all db' c = Except.ok (vs ++ [d]) ∧ d ∈ vs ++ [d] := by
  obtain ⟨hreg, hconn, rows, halk, hdb'⟩ := add_row_ok_inv hadd
  obtain ⟨rows2, halk2, hdec⟩ := get_all_ok_inv hget
  rw [halk] at halk2
  injection halk2 with halk2
  subst halk2
  constructor
  · subst hdb'
    have halk3 : alook (aset db.tables c (rows ++ [encodeVal d])) c
        = some (rows ++ [encodeVal d]) := alook_aset db.tables c rows _ halk
    have hdecall : decodeAll (rows ++ [encodeVal d]) = some (vs ++ [d]) :=
      decodeAll_append rows [encodeVal d] vs [d] hdec
        (by rw [decodeAll, decode_encode]; rfl)
    have hmem : c ∈ TABLES := by simpa using hreg
    rw [get_all, check_table]
    simp [hmem, halk3, hdecall]
  · simp

/-- Witness for claim C6 on a fresh database and the document
`{"name":"a","age":5}`. -/
theorem get_all_after_add_row_witness :
    get_all DocumentDatabase.init "issues" = Except.ok [] ∧
    add_row DocumentDatabase.init "issues" docA
      = Except.ok ⟨true, [("issues", [encodeVal docA]), ("rules", [])]⟩ ∧
    get_all ⟨true, [("issues", [encodeVal docA]), ("rules", [])]⟩ "issues"
      = Except.ok [docA] ∧ docA ∈ [docA] :=
  ⟨rfl, rfl,
   (get_all_after_add_row DocumentDatabase.init
     ⟨true, [("issues", [encodeVal docA]), ("rules", [])]⟩ "issues" docA [] rfl rfl).1,
   (get_all_after_add_row DocumentDatabase.init
     ⟨true, [("issues", [encodeVal docA]), ("rules", [])]⟩ "issues" docA [] rfl rfl).2⟩

/-- Claim C7: a dotted field path addresses a nested member — if a document
`{"address": {"city": s}}` (quote-free `s`) is stored in the scanned table,
`find` with the query `{"address.city": s}` succeeds and its result contains
that document. -/
theorem find_nested_field (db : DocumentDatabase) (t : String) (docs : List Value)
    (s : List Char) (hconn : db.conn_open = true)
    (htab : alook db.tables t = some (docs.map encodeVal))
    (hmem : docAddr s ∈ docs) (hs : s.contains squote = false) :
    ∃ res, (find db t [(chars "address.city", QVal.qstr s)]).1 = Except.ok res ∧
      docAddr s ∈ res := by
  have hs2 : squote ∉ s := by simpa using hs
  have hgood : goodQuery [(chars "address.city", QVal.qstr s)] = true := by
    simp +decide [goodQuery, strNoQuote, hs2]
  have h := find_good db t docs [(chars "address.city", QVal.qstr s)] hconn htab hgood
  refine ⟨matchedDocs docs [(chars "address.city", QVal.qstr s)], ?_, ?_⟩
  · rw [h]
    simp
  · rw [matchedDocs]
    refine List.mem_filter.2 ⟨hmem, ?_⟩
    simp [List.all_cons, List.all_nil, semMatch, litOf, splitDots, extract, flook,
      docAddr, jsqlEq, chars]

/-- Witness for claim C7 at the spec's scenario `{"address": {"city": "X"}}`. -/
theorem find_nested_field_witness :
    (⟨true, [("issues", [encodeVal (docAddr (chars "X"))]), ("rules", [])]⟩ :
        DocumentDatabase).conn_open = true ∧
    alook (⟨true, [("issues", [encodeVal (docAddr (chars "X"))]), ("rules", [])]⟩ :
        DocumentDatabase).tables "issues"
      = some ([docAddr (chars "X")].map encodeVal) ∧
    docAddr (chars "X") ∈ [docAddr (chars "X")] ∧
    (chars "X").contains squote = false ∧
    ∃ res, (find ⟨true, [("issues", [encodeVal (docAddr (chars "X"))]), ("rules", [])]⟩
        "issues" [(chars "address.city", QVal.qstr (chars "X"))]).1 = Except.ok res ∧
      docAddr (chars "X") ∈ res :=
  ⟨rfl, rfl, by simp, rfl,
   find_nested_field _ "issues" [docAddr (chars "X")] (chars "X") rfl rfl (by simp) rfl⟩

/-- Claim C8: `close` never fails — it returns successfully on an open
connection, and calling it again on the already-closed engine succeeds as well
(the probe's `ProgrammingError` is swallowed), leaving the state closed. -/
theorem close_idempotent (db : DocumentDatabase) :
    close db = Except.ok ⟨false, db.tables⟩ ∧
    close ⟨false, db.tables⟩ = Except.ok ⟨false, db.tables⟩ := by
  obtain ⟨co, ts⟩ := db
  cases co <;> simp [close]

/-- Claim C9: `find` with an empty query mapping returns the empty sequence
for every collection name and every database state — the loop body never runs,
so no registry check, no SQL statement and no exception occur. -/
theorem find_empty_query (db : DocumentDatabase) (t : String) :
    find db t [] = (Except.ok [], []) := by
  simp [find, findLoop]

/-- Claim C10: `find` mutates the caller's query dict in place — on any run
that completes without an exception, every string value ends up wrapped in
single quotes while non-string values are untouched. -/
theorem find_mutates_query (db : DocumentDatabase) (t : String)
    (q : List (List Char × QVal)) (r : List Value)
    (h : (find db t q).1 = Except.ok r) :
    (find db t q).2 = List.map quoteKV q := by
  have h2 := findLoop_mutates db t q [] [] r h
  simpa [find] using h2

/-- Witness for claim C10: a string-valued query against the empty `issues`
table completes with no rows, and the caller's dict now holds the quoted
string. -/
theorem find_mutates_query_witness :
    (find DocumentDatabase.init "issues" [(chars "name", QVal.qstr (chars "a"))]).1
      = Except.ok [] ∧
    (find DocumentDatabase.init "issues" [(chars "name", QVal.qstr (chars "a"))]).2
      = [(chars "name", QVal.qstr [squote, 'a', squote])] :=
  ⟨rfl, find_mutates_query DocumentDatabase.init "issues" _ [] rfl⟩
